import Mathlib

/-!
Verification of the incremental-indexing reconciler of this repository
(`index_create_gcp_cloud.py`, `index_create_local.py`) and of the query
endpoint (`app.py`, `app_remote.py`).

The embedding models the GCS variant `incremental_index` in full (documents
carry an optional fingerprint: the blob's `md5_hash` may be missing); the
local-filesystem variant is the special case in which every fingerprint is
present (SHA-256 is always computed) and no temporary staging copy is made.
External effects (GCS download, upload to the File Search store, the
poll-until-done loop, temp-file removal, ledger persistence) are recorded as
an event trace; the outcome of each document's upload-and-poll sequence is
supplied by an oracle `ok : String → Bool` (`false` models an exception
raised by the upload call or by polling, which propagates and aborts the
run, as in the source).
-/

/-- The persisted ledger `{ blob_name: md5_hash }` / `{ filename: sha256 }`:
an association list of (identifier, fingerprint) pairs, mirroring the JSON
object loaded by `load_index_state` / `load_index_state_from_gcs`. -/
abbrev Ledger := List (String × String)

/-- `state.get(name)`: Python `dict.get`, `none` when the key is absent. -/
def dget (id : String) : Ledger → Option String
  | [] => none
  | (k, v) :: rest => if k = id then some v else dget id rest

/-- `state[name] = fp`: Python `dict` assignment (overwrite in place when the
key exists, append otherwise). -/
def stateSet (L : Ledger) (id fp : String) : Ledger :=
  match L with
  | [] => [(id, fp)]
  | (k, v) :: rest => if k = id then (k, fp) :: rest else (k, v) :: stateSet rest id fp

/-- The three classification outcomes printed by the reconciler's diff loop:
`[NEW]`, `[CHANGED]`, `[SKIP] (already indexed and unchanged)`. -/
inductive DocClass
  | NEW
  | CHANGED
  | UNCHANGED
deriving DecidableEq, Repr

/-- Classification of one candidate `(blob_name, md5)` against the loaded
state, exactly as in the diff loop of `incremental_index`
(`index_create_gcp_cloud.py` lines 189–199):
`old_hash = state.get(blob_name)`; `if old_hash is None:` NEW;
`elif md5 is None or old_hash != md5:` CHANGED; `else:` SKIP. -/
def classify (state : Ledger) (id : String) (fp : Option String) : DocClass :=
  match dget id state with
  | none => DocClass.NEW
  | some old =>
    match fp with
    | none => DocClass.CHANGED
    | some m => if old ≠ m then DocClass.CHANGED else DocClass.UNCHANGED

/-- The `new_or_changed` list built by the diff loop: candidates classified
`NEW` or `CHANGED` are appended, `SKIP`ped ones are not, in enumeration
order. -/
def new_or_changed (state : Ledger) : List (String × Option String) → List (String × Option String)
  | [] => []
  | (id, fp) :: rest =>
    let tail := new_or_changed state rest
    match dget id state with
    | none => (id, fp) :: tail
    | some old =>
      match fp with
      | none => (id, fp) :: tail
      | some m => if old ≠ m then (id, fp) :: tail else tail

/-- Observable external effects of one reconciler run, in program order. -/
inductive Event
  | download (id : String)
  | upload (id : String)
  | pollDone (id : String)
  | commit (id : String) (fp : String)
  | removeTmp (id : String)
  | persist (state : Ledger)
deriving DecidableEq, Repr

/-- The per-document upload loop of `incremental_index`
(`index_create_gcp_cloud.py` lines 206–234).  For each `(blob_name, md5)` in
`new_or_changed`: download the blob to `/tmp` (stage a copy), call
`upload_to_file_search_store`, poll the operation until `done`, then commit
`state[blob_name] = md5` only when `md5 is not None`, and finally
`os.remove(tmp_path)`.  The oracle decides whether the upload-and-poll
sequence reaches `done` (`true`) or raises (`false`); a raise aborts the
loop at once — in the source there is no `try/finally`, so neither the
commit nor the temp-file removal of that iteration runs. -/
def uploadLoop (ok : String → Bool) (state : Ledger) :
    List (String × Option String) → List Event × Ledger × Bool
  | [] => ([], state, true)
  | (id, fp) :: rest =>
    if ok id then
      let st1 := match fp with
        | some m => stateSet state id m
        | none => state
      let evs1 := Event.download id :: Event.upload id :: Event.pollDone id ::
        ((match fp with
          | some m => [Event.commit id m]
          | none => []) ++ [Event.removeTmp id])
      let r := uploadLoop ok st1 rest
      (evs1 ++ r.1, r.2)
    else
      ([Event.download id, Event.upload id], state, false)

/-- Result of one run: the event trace, the in-memory state at the point the
run ended, what (if anything) `save_index_state` wrote, and whether the run
completed without an exception. -/
structure RunResult where
  events : List Event
  finalState : Ledger
  persisted : Option Ledger
  success : Bool
deriving DecidableEq, Repr

/-- `incremental_index` (`index_create_gcp_cloud.py` lines 169–238,
`index_create_local.py` lines 100–159): load state, enumerate candidates,
build `new_or_changed`; if it is empty, print "Index is up-to-date" and
return (the persisted state is not rewritten); otherwise run the upload
loop and, when it completes without an exception, persist the updated
state once at the end. -/
def incremental_index (ok : String → Bool) (state0 : Ledger)
    (candidates : List (String × Option String)) : RunResult :=
  let noc := new_or_changed state0 candidates
  match noc with
  | [] => { events := [], finalState := state0, persisted := none, success := true }
  | _ =>
    let r := uploadLoop ok state0 noc
    if r.2.2 then
      { events := r.1 ++ [Event.persist r.2.1], finalState := r.2.1,
        persisted := some r.2.1, success := true }
    else
      { events := r.1, finalState := r.2.1, persisted := none, success := false }

/-- The ledger governing the next run: what this run persisted, or the
previously persisted ledger when the run wrote nothing. -/
def ledgerAfter (prev : Ledger) (r : RunResult) : Ledger :=
  match r.persisted with
  | some L => L
  | none => prev

/-- Number of `upload` calls recorded in a trace. -/
def uploadCount (evs : List Event) : Nat :=
  (evs.filter fun e => match e with | Event.upload _ => true | _ => false).length

lemma dget_stateSet (L : Ledger) (k v id : String) :
    dget id (stateSet L k v) = if k = id then some v else dget id L := by
  induction L with
  | nil => by_cases h : k = id <;> simp [stateSet, dget, h]
  | cons p rest ih =>
    obtain ⟨a, b⟩ := p
    by_cases hak : a = k
    · subst hak
      by_cases hai : a = id <;> simp [stateSet, dget, hai]
    · by_cases hai : a = id
      · subst hai
        have : ¬ k = a := fun h => hak h.symm
        simp [stateSet, dget, hak, this, ih]
      · simp [stateSet, dget, hak, hai, ih]

lemma new_or_changed_eq_filter (L : Ledger) (C : List (String × Option String)) :
    new_or_changed L C = C.filter (fun p => decide (classify L p.1 p.2 ≠ DocClass.UNCHANGED)) := by
  induction C with
  | nil => rfl
  | cons p rest ih =>
    obtain ⟨id, fp⟩ := p
    cases h : dget id L with
    | none => simp [new_or_changed, classify, h, ih, List.filter]
    | some old =>
      cases fp with
      | none => simp [new_or_changed, classify, h, ih, List.filter]
      | some m =>
        by_cases hm : old = m
        · simp [new_or_changed, classify, h, hm, ih, List.filter]
        · simp [new_or_changed, classify, h, hm, ih, List.filter]

lemma mem_new_or_changed_iff (L : Ledger) (C : List (String × Option String))
    (p : String × Option String) :
    p ∈ new_or_changed L C ↔ p ∈ C ∧ classify L p.1 p.2 ≠ DocClass.UNCHANGED := by
  rw [new_or_changed_eq_filter]
  simp [List.mem_filter]

lemma new_or_changed_sublist (L : Ledger) (C : List (String × Option String)) :
    (new_or_changed L C).Sublist C := by
  rw [new_or_changed_eq_filter]; exact List.filter_sublist C

lemma uploadLoop_upload_mem (ok : String → Bool) (state : Ledger)
    (docs : List (String × Option String)) (i : String)
    (h : Event.upload i ∈ (uploadLoop ok state docs).1) : i ∈ docs.map Prod.fst := by
  induction docs generalizing state with
  | nil => simp [uploadLoop] at h
  | cons p rest ih =>
    obtain ⟨id, fp⟩ := p
    by_cases hok : ok id
    · cases fp <;>
      · simp only [uploadLoop, hok, if_true, List.cons_append, List.nil_append,
          List.append_assoc, List.mem_cons, List.mem_append,
          List.mem_singleton] at h
        simp only [List.map_cons, List.mem_cons]
        rcases h with h | h | h | h
        · exact absurd h (by simp)
        · exact Or.inl (Event.upload.inj h)
        · exact absurd h (by simp)
        · first
          | (rcases h with h | h
             · exact absurd h (by simp)
             · exact Or.inr (ih _ h))
          | (rcases h with h | h | h
             · exact absurd h (by simp)
             · exact absurd h (by simp)
             · exact Or.inr (ih _ h))
    · simp [uploadLoop, hok] at h
      simp [List.map_cons, h]

lemma uploadLoop_dget_not_mem (ok : String → Bool) (state : Ledger)
    (docs : List (String × Option String)) (id : String)
    (h : id ∉ docs.map Prod.fst) :
    dget id (uploadLoop ok state docs).2.1 = dget id state := by
  induction docs generalizing state with
  | nil => rfl
  | cons p rest ih =>
    obtain ⟨k, fp⟩ := p
    simp only [List.map_cons, List.mem_cons] at h
    push_neg at h
    by_cases hok : ok k
    · cases fp with
      | none => simp only [uploadLoop, hok, if_true]; exact ih _ h.2
      | some m =>
        simp only [uploadLoop, hok, if_true]
        rw [ih _ h.2, dget_stateSet]
        simp [h.1.symm]
    · simp [uploadLoop, hok]

lemma uploadLoop_success_iff (ok : String → Bool) (state : Ledger)
    (docs : List (String × Option String)) :
    (uploadLoop ok state docs).2.2 = true ↔ ∀ p ∈ docs, ok p.1 = true := by
  induction docs generalizing state with
  | nil => simp [uploadLoop]
  | cons p rest ih =>
    obtain ⟨k, fp⟩ := p
    by_cases hok : ok k
    · cases fp <;> · simp only [uploadLoop, hok, if_true]
                     rw [ih]
                     simp [hok]
    · constructor
      · intro hs
        exact absurd hs (by simp [uploadLoop, hok])
      · intro hall
        exact absurd (hall (k, fp) (List.mem_cons_self _ _)) (by simp [hok])

lemma uploadLoop_commit_mem (ok : String → Bool) (state : Ledger)
    (docs : List (String × Option String)) (i m : String)
    (h : Event.commit i m ∈ (uploadLoop ok state docs).1) : (i, some m) ∈ docs := by
  induction docs generalizing state with
  | nil => simp [uploadLoop] at h
  | cons p rest ih =>
    obtain ⟨id, fp⟩ := p
    by_cases hok : ok id
    · cases fp with
      | none =>
        simp [uploadLoop, hok] at h
        exact List.mem_cons_of_mem _ (ih _ h)
      | some v =>
        simp [uploadLoop, hok] at h
        rcases h with ⟨hi, hm⟩ | h
        · simp [hi, hm]
        · exact List.mem_cons_of_mem _ (ih _ h)
    · simp [uploadLoop, hok] at h

lemma uploadLoop_no_persist (ok : String → Bool) (state : Ledger)
    (docs : List (String × Option String)) (st' : Ledger) :
    Event.persist st' ∉ (uploadLoop ok state docs).1 := by
  induction docs generalizing state with
  | nil => simp [uploadLoop]
  | cons p rest ih =>
    obtain ⟨id, fp⟩ := p
    by_cases hok : ok id
    · cases fp <;> simp [uploadLoop, hok, ih]
    · simp [uploadLoop, hok]

lemma uploadLoop_removeTmp_of_success (ok : String → Bool) (state : Ledger)
    (docs : List (String × Option String))
    (hs : (uploadLoop ok state docs).2.2 = true) :
    ∀ p ∈ docs, Event.removeTmp p.1 ∈ (uploadLoop ok state docs).1 := by
  induction docs generalizing state with
  | nil => simp
  | cons q rest ih =>
    obtain ⟨id, fp⟩ := q
    have hall := (uploadLoop_success_iff ok state ((id, fp) :: rest)).mp hs
    have hok : ok id = true := hall (id, fp) (List.mem_cons_self _ _)
    have hs2 : ∀ st, (uploadLoop ok st rest).2.2 = true := fun st =>
      (uploadLoop_success_iff ok st rest).mpr
        (fun q hq => hall q (List.mem_cons_of_mem _ hq))
    intro p hp
    rcases List.mem_cons.mp hp with h1 | h1
    · subst h1
      cases fp <;> simp [uploadLoop, hok]
    · cases fp with
      | none =>
        have h2 := ih state (hs2 state) p h1
        simp only [uploadLoop, hok, if_true]
        simp
        tauto
      | some m =>
        have h2 := ih (stateSet state id m) (hs2 _) p h1
        simp only [uploadLoop, hok, if_true]
        simp
        tauto

lemma uploadLoop_dget_committed (ok : String → Bool) (state : Ledger)
    (docs : List (String × Option String)) (i m : String)
    (hnd : (docs.map Prod.fst).Nodup)
    (hmem : (i, some m) ∈ docs)
    (hs : (uploadLoop ok state docs).2.2 = true) :
    dget i (uploadLoop ok state docs).2.1 = some m := by
  induction docs generalizing state with
  | nil => simp at hmem
  | cons q rest ih =>
    obtain ⟨id, fp⟩ := q
    have hall := (uploadLoop_success_iff ok state ((id, fp) :: rest)).mp hs
    have hok : ok id = true := hall (id, fp) (List.mem_cons_self _ _)
    have hs2 : ∀ st, (uploadLoop ok st rest).2.2 = true := fun st =>
      (uploadLoop_success_iff ok st rest).mpr
        (fun q hq => hall q (List.mem_cons_of_mem _ hq))
    simp only [List.map_cons, List.nodup_cons] at hnd
    rcases List.mem_cons.mp hmem with h1 | h1
    · injection h1 with hi hf
      subst hi
      subst hf
      simp only [uploadLoop, hok, if_true]
      rw [uploadLoop_dget_not_mem _ _ _ _ hnd.1, dget_stateSet]
      simp
    · cases fp with
      | none =>
        simp only [uploadLoop, hok, if_true]
        exact ih state hnd.2 h1 (hs2 state)
      | some v =>
        simp only [uploadLoop, hok, if_true]
        exact ih (stateSet state id v) hnd.2 h1 (hs2 _)

/-- Trace-ordering bookkeeping: `seenBefore mark need seen l` holds when every
event of `l` that `need`s an identifier finds it either in `seen` or marked
by an earlier event of `l`. -/
def seenBefore (mark need : Event → Option String) : List String → List Event → Prop
  | _, [] => True
  | seen, e :: rest =>
    (match need e with
     | some i => i ∈ seen
     | none => True) ∧
    seenBefore mark need
      (match mark e with
       | some i => i :: seen
       | none => seen) rest

lemma seenBefore_split (mark need : Event → Option String) :
    ∀ (pre : List Event) (seen : List String) (e : Event) (suf : List Event) (i : String),
    seenBefore mark need seen (pre ++ e :: suf) → need e = some i →
    i ∈ seen ∨ ∃ e' ∈ pre, mark e' = some i := by
  intro pre
  induction pre with
  | nil =>
    intro seen e suf i hsb hne
    rcases hsb with ⟨h1, _⟩
    rw [hne] at h1
    exact Or.inl h1
  | cons x pre' ih =>
    intro seen e suf i hsb hne
    rcases hsb with ⟨_, h2⟩
    rcases ih _ e suf i h2 hne with h | ⟨e', he', hm⟩
    · cases hmx : mark x with
      | none => rw [hmx] at h; exact Or.inl h
      | some j =>
        rw [hmx] at h
        rcases List.mem_cons.mp h with h | h
        · exact Or.inr ⟨x, List.mem_cons_self _ _, h ▸ hmx⟩
        · exact Or.inl h
    · exact Or.inr ⟨e', List.mem_cons_of_mem _ he', hm⟩

lemma seenBefore_append (mark need : Event → Option String) :
    ∀ (l1 l2 : List Event) (seen : List String),
    seenBefore mark need seen l1 → (∀ s, seenBefore mark need s l2) →
    seenBefore mark need seen (l1 ++ l2) := by
  intro l1
  induction l1 with
  | nil => intro l2 seen _ h2; exact h2 seen
  | cons e l1' ih =>
    intro l2 seen h1 h2
    exact ⟨h1.1, ih l2 _ h1.2 h2⟩

/-- Identifier marked by a `pollDone` event. -/
def markPoll : Event → Option String
  | Event.pollDone i => some i
  | _ => none

/-- Identifier a `commit` event is about. -/
def needCommit : Event → Option String
  | Event.commit i _ => some i
  | _ => none

/-- Identifier marked by an `upload` event. -/
def markUpload : Event → Option String
  | Event.upload i => some i
  | _ => none

/-- Identifier a `removeTmp` event is about. -/
def needRemove : Event → Option String
  | Event.removeTmp i => some i
  | _ => none

lemma markPoll_eq (e : Event) (i : String) (h : markPoll e = some i) :
    e = Event.pollDone i := by
  cases e <;> simp [markPoll] at h <;> simp [h]

lemma markUpload_eq (e : Event) (i : String) (h : markUpload e = some i) :
    e = Event.upload i := by
  cases e <;> simp [markUpload] at h <;> simp [h]

lemma uploadLoop_seen_commit (ok : String → Bool) (state : Ledger)
    (docs : List (String × Option String)) :
    ∀ seen, seenBefore markPoll needCommit seen (uploadLoop ok state docs).1 := by
  induction docs generalizing state with
  | nil => intro seen; simp [uploadLoop, seenBefore]
  | cons q rest ih =>
    obtain ⟨id, fp⟩ := q
    intro seen
    by_cases hok : ok id
    · cases fp with
      | none =>
        simp only [uploadLoop, hok, if_true, List.nil_append, List.cons_append]
        refine ⟨trivial, trivial, trivial, trivial, ?_⟩
        exact ih state _
      | some m =>
        simp only [uploadLoop, hok, if_true, List.cons_append, List.singleton_append]
        refine ⟨trivial, trivial, trivial, ?_, trivial, ?_⟩
        · exact List.mem_cons_self _ _
        · exact ih (stateSet state id m) _
    · simp [uploadLoop, hok, seenBefore, markPoll, needCommit]

lemma uploadLoop_seen_remove (ok : String → Bool) (state : Ledger)
    (docs : List (String × Option String)) :
    ∀ seen, seenBefore markUpload needRemove seen (uploadLoop ok state docs).1 := by
  induction docs generalizing state with
  | nil => intro seen; simp [uploadLoop, seenBefore]
  | cons q rest ih =>
    obtain ⟨id, fp⟩ := q
    intro seen
    by_cases hok : ok id
    · cases fp with
      | none =>
        simp only [uploadLoop, hok, if_true, List.nil_append, List.cons_append]
        refine ⟨trivial, trivial, trivial, ?_, ?_⟩
        · exact List.mem_cons_self _ _
        · exact ih state _
      | some m =>
        simp only [uploadLoop, hok, if_true, List.cons_append, List.singleton_append]
        refine ⟨trivial, trivial, trivial, trivial, ?_, ?_⟩
        · exact List.mem_cons_self _ _
        · exact ih (stateSet state id m) _
    · simp [uploadLoop, hok, seenBefore, markUpload, needRemove]

lemma persist_split_last (l : List Event) (hl : ∀ st, Event.persist st ∉ l)
    (stp : Ledger) :
    ∀ (pre : List Event) (st' : Ledger) (suf : List Event),
    l ++ [Event.persist stp] = pre ++ Event.persist st' :: suf → suf = [] := by
  induction l with
  | nil =>
    intro pre st' suf h
    cases suf with
    | nil => rfl
    | cons y suf' =>
      have hlen := congrArg List.length h
      simp [List.length_append] at hlen
      omega
  | cons e l' ih =>
    intro pre st' suf h
    cases pre with
    | nil =>
      simp only [List.cons_append, List.nil_append, List.cons.injEq] at h
      exact absurd (h.1 ▸ List.mem_cons_self e l') (h.1 ▸ hl st')
    | cons x pre' =>
      simp only [List.cons_append, List.cons.injEq] at h
      exact ih (fun st hm => hl st (List.mem_cons_of_mem _ hm)) pre' st' suf h.2

lemma incremental_index_eq_nil (ok : String → Bool) (L : Ledger)
    (C : List (String × Option String)) (h : new_or_changed L C = []) :
    incremental_index ok L C = ⟨[], L, none, true⟩ := by
  simp [incremental_index, h]

lemma incremental_index_eq_pos (ok : String → Bool) (L : Ledger)
    (C : List (String × Option String)) (h : new_or_changed L C ≠ []) :
    incremental_index ok L C =
      if (uploadLoop ok L (new_or_changed L C)).2.2 then
        ⟨(uploadLoop ok L (new_or_changed L C)).1 ++
            [Event.persist (uploadLoop ok L (new_or_changed L C)).2.1],
          (uploadLoop ok L (new_or_changed L C)).2.1,
          some (uploadLoop ok L (new_or_changed L C)).2.1, true⟩
      else
        ⟨(uploadLoop ok L (new_or_changed L C)).1,
          (uploadLoop ok L (new_or_changed L C)).2.1, none, false⟩ := by
  cases hnoc : new_or_changed L C with
  | nil => exact absurd hnoc h
  | cons a t => simp [incremental_index, hnoc]

lemma run_seen_commit (ok : String → Bool) (L : Ledger)
    (C : List (String × Option String)) :
    seenBefore markPoll needCommit [] (incremental_index ok L C).events := by
  by_cases h : new_or_changed L C = []
  · rw [incremental_index_eq_nil ok L C h]
    exact trivial
  · rw [incremental_index_eq_pos ok L C h]
    by_cases hs : (uploadLoop ok L (new_or_changed L C)).2.2
    · simp only [hs, if_true]
      exact seenBefore_append _ _ _ _ _ (uploadLoop_seen_commit ok L _ _)
        (fun s => ⟨trivial, trivial⟩)
    · simp only [hs, if_false]
      exact uploadLoop_seen_commit ok L _ _

lemma run_seen_remove (ok : String → Bool) (L : Ledger)
    (C : List (String × Option String)) :
    seenBefore markUpload needRemove [] (incremental_index ok L C).events := by
  by_cases h : new_or_changed L C = []
  · rw [incremental_index_eq_nil ok L C h]
    exact trivial
  · rw [incremental_index_eq_pos ok L C h]
    by_cases hs : (uploadLoop ok L (new_or_changed L C)).2.2
    · simp only [hs, if_true]
      exact seenBefore_append _ _ _ _ _ (uploadLoop_seen_remove ok L _ _)
        (fun s => ⟨trivial, trivial⟩)
    · simp only [hs, if_false]
      exact uploadLoop_seen_remove ok L _ _

lemma run_persist_last (ok : String → Bool) (L : Ledger)
    (C : List (String × Option String)) :
    ∀ (pre : List Event) (st' : Ledger) (suf : List Event),
    (incremental_index ok L C).events = pre ++ Event.persist st' :: suf → suf = [] := by
  intro pre st' suf h
  by_cases hn : new_or_changed L C = []
  · rw [incremental_index_eq_nil ok L C hn] at h
    exact absurd (h ▸ List.mem_append_right pre (List.mem_cons_self _ _))
      (List.not_mem_nil _)
  · rw [incremental_index_eq_pos ok L C hn] at h
    by_cases hs : (uploadLoop ok L (new_or_changed L C)).2.2
    · simp only [hs, if_true] at h
      exact persist_split_last _ (uploadLoop_no_persist ok L _) _ pre st' suf h
    · simp only [hs, if_false] at h
      exact absurd (h ▸ List.mem_append_right pre (List.mem_cons_self _ _))
        (uploadLoop_no_persist ok L _ _)

lemma nodup_fst_eq {α β : Type} (C : List (α × β)) (h : (C.map Prod.fst).Nodup)
    (p q : α × β) (hp : p ∈ C) (hq : q ∈ C) (hfst : p.1 = q.1) : p = q := by
  induction C with
  | nil => simp at hp
  | cons x rest ih =>
    simp only [List.map_cons, List.nodup_cons] at h
    rcases List.mem_cons.mp hp with hp1 | hp1 <;> rcases List.mem_cons.mp hq with hq1 | hq1
    · exact hp1.trans hq1.symm
    · subst hp1
      exact absurd (List.mem_map.mpr ⟨q, hq1, hfst.symm⟩) h.1
    · subst hq1
      exact absurd (List.mem_map.mpr ⟨p, hp1, hfst⟩) h.1
    · exact ih h.2 hp1 hq1

lemma uploadLoop_dget_absent (ok : String → Bool) (state : Ledger)
    (docs : List (String × Option String)) (id : String)
    (hnd : (docs.map Prod.fst).Nodup)
    (hmem : (id, (none : Option String)) ∈ docs) :
    dget id (uploadLoop ok state docs).2.1 = dget id state := by
  induction docs generalizing state with
  | nil => rfl
  | cons q rest ih =>
    obtain ⟨k, fp⟩ := q
    simp only [List.map_cons, List.nodup_cons] at hnd
    rcases List.mem_cons.mp hmem with h1 | h1
    · injection h1 with hi hf
      subst hi
      subst hf
      by_cases hok : ok id
      · simp only [uploadLoop, hok, if_true]
        exact uploadLoop_dget_not_mem ok state rest id hnd.1
      · simp [uploadLoop, hok]
    · have hki : k ≠ id := by
        intro he
        exact hnd.1 (he ▸ List.mem_map.mpr ⟨(id, none), h1, rfl⟩)
      by_cases hok : ok k
      · cases fp with
        | none =>
          simp only [uploadLoop, hok, if_true]
          exact ih state hnd.2 h1
        | some v =>
          simp only [uploadLoop, hok, if_true]
          rw [ih (stateSet state k v) hnd.2 h1, dget_stateSet]
          simp [hki]
      · simp [uploadLoop, hok]

lemma uploadLoop_dget_mono (ok : String → Bool) (state : Ledger)
    (docs : List (String × Option String)) (id v : String)
    (h : dget id state = some v) :
    ∃ w, dget id (uploadLoop ok state docs).2.1 = some w := by
  induction docs generalizing state v with
  | nil => exact ⟨v, h⟩
  | cons q rest ih =>
    obtain ⟨k, fp⟩ := q
    by_cases hok : ok k
    · cases fp with
      | none =>
        simp only [uploadLoop, hok, if_true]
        exact ih state v h
      | some m =>
        simp only [uploadLoop, hok, if_true]
        by_cases hk : k = id
        · exact ih (stateSet state k m) m (by rw [dget_stateSet]; simp [hk])
        · exact ih (stateSet state k m) v (by rw [dget_stateSet]; simp [hk, h])
    · exact ⟨v, by simp [uploadLoop, hok, h]⟩

lemma classify_none_ne_unchanged (L : Ledger) (id : String) :
    classify L id none ≠ DocClass.UNCHANGED := by
  cases h : dget id L <;> simp [classify, h]

lemma run_finalState (ok : String → Bool) (L : Ledger)
    (C : List (String × Option String)) (h : new_or_changed L C ≠ []) :
    (incremental_index ok L C).finalState =
      (uploadLoop ok L (new_or_changed L C)).2.1 := by
  rw [incremental_index_eq_pos ok L C h]
  by_cases hs : (uploadLoop ok L (new_or_changed L C)).2.2 <;> simp [hs]

lemma run_upload_only_noc (ok : String → Bool) (L : Ledger)
    (C : List (String × Option String)) (i : String)
    (hi : Event.upload i ∈ (incremental_index ok L C).events) :
    i ∈ (new_or_changed L C).map Prod.fst := by
  by_cases hn : new_or_changed L C = []
  · rw [incremental_index_eq_nil ok L C hn] at hi
    simp at hi
  · rw [incremental_index_eq_pos ok L C hn] at hi
    by_cases hs : (uploadLoop ok L (new_or_changed L C)).2.2
    · simp only [hs, if_true] at hi
      rcases List.mem_append.mp hi with hi | hi
      · exact uploadLoop_upload_mem ok L _ i hi
      · simp at hi
    · simp only [hs, if_false] at hi
      exact uploadLoop_upload_mem ok L _ i hi

lemma run_commit_mem (ok : String → Bool) (L : Ledger)
    (C : List (String × Option String)) (i m : String)
    (hi : Event.commit i m ∈ (incremental_index ok L C).events) :
    (i, some m) ∈ new_or_changed L C := by
  by_cases hn : new_or_changed L C = []
  · rw [incremental_index_eq_nil ok L C hn] at hi
    simp at hi
  · rw [incremental_index_eq_pos ok L C hn] at hi
    by_cases hs : (uploadLoop ok L (new_or_changed L C)).2.2
    · simp only [hs, if_true] at hi
      rcases List.mem_append.mp hi with hi | hi
      · exact uploadLoop_commit_mem ok L _ i m hi
      · simp at hi
    · simp only [hs, if_false] at hi
      exact uploadLoop_commit_mem ok L _ i m hi

/-- C1 (counterexample): the claim "every document with absent fingerprint is
classified CHANGED regardless of ledger state" is false on the code: a
document with absent fingerprint whose identifier is not in the ledger is
classified NEW (`old_hash is None` is checked first), not CHANGED. -/
theorem classification_absent_counterexample :
    classify [] "c.pdf" none = DocClass.NEW ∧ DocClass.NEW ≠ DocClass.CHANGED := by
  exact ⟨rfl, by decide⟩

/-- C1 (amended): each enumerated `(id, fp)` is classified NEW iff `id` is
not a key of the ledger, CHANGED iff `id` is a key and (`fp` absent or the
stored hash differs), UNCHANGED otherwise; a document with absent `fp` is
never classified UNCHANGED (it is NEW when not in the ledger, CHANGED
otherwise); the upload list is exactly the NEW/CHANGED documents, and every
`upload` call of a run is for a document of that list. -/
theorem classification_rules (L : Ledger) (id : String) (fp : Option String)
    (ok : String → Bool) (C : List (String × Option String)) :
    (classify L id fp = DocClass.NEW ↔ dget id L = none) ∧
    (classify L id fp = DocClass.CHANGED ↔
      ∃ old, dget id L = some old ∧ (fp = none ∨ fp ≠ some old)) ∧
    (classify L id fp = DocClass.UNCHANGED ↔
      ∃ old, dget id L = some old ∧ fp = some old) ∧
    (fp = none → classify L id fp ≠ DocClass.UNCHANGED) ∧
    (new_or_changed L C =
      C.filter (fun p => decide (classify L p.1 p.2 ≠ DocClass.UNCHANGED))) ∧
    (∀ i, Event.upload i ∈ (incremental_index ok L C).events →
      i ∈ (new_or_changed L C).map Prod.fst) := by
  refine ⟨?_, ?_, ?_, ?_, new_or_changed_eq_filter L C, fun i => run_upload_only_noc ok L C i⟩
  · cases hd : dget id L with
    | none => simp [classify, hd]
    | some old =>
      cases fp with
      | none => simp [classify, hd]
      | some m => by_cases hm : old = m <;> simp [classify, hd, hm]
  · cases hd : dget id L with
    | none => simp [classify, hd]
    | some old =>
      cases fp with
      | none => simp [classify, hd]
      | some m =>
        by_cases hm : old = m
        · simp [classify, hd, hm]
        · simp [classify, hd, hm]
          tauto
  · cases hd : dget id L with
    | none => simp [classify, hd]
    | some old =>
      cases fp with
      | none => simp [classify, hd]
      | some m =>
        by_cases hm : old = m
        · simp [classify, hd, hm]
        · simp [classify, hd, hm]
          tauto
  · intro hfp
    subst hfp
    exact classify_none_ne_unchanged L id

/-- C1 witness: a concrete instance of the amended classification theorem. -/
theorem classification_rules_witness :
    (classify [("a.txt", "h1")] "a.txt" (some "h1") = DocClass.UNCHANGED ↔
      ∃ old, dget "a.txt" [("a.txt", "h1")] = some old ∧ some "h1" = some old) := by
  exact (classification_rules [("a.txt", "h1")] "a.txt" (some "h1")
    (fun _ => true) []).2.2.1

/-- C3 (counterexample): for a previously indexed document whose fingerprint
is now absent, a successful run leaves its ledger entry SET to the old
value — it does not "remain absent/unset". -/
theorem degraded_entry_counterexample :
    (incremental_index (fun _ => true) [("a.txt", "h1")] [("a.txt", none)]).success = true ∧
    (incremental_index (fun _ => true) [("a.txt", "h1")] [("a.txt", none)]).persisted =
      some [("a.txt", "h1")] ∧
    dget "a.txt"
      (incremental_index (fun _ => true) [("a.txt", "h1")] [("a.txt", none)]).finalState ≠
      none := by
  refine ⟨rfl, rfl, ?_⟩
  decide

/-- C3 (amended): for a document with absent fingerprint, a run (successful
or not) commits no fingerprint for it: no `commit` event for its identifier
occurs, its ledger entry is left exactly as before the run (absent stays
absent, a pre-existing entry keeps its old value), and on the next run it is
classified NEW or CHANGED, never UNCHANGED. -/
theorem degraded_fp_not_committed (ok : String → Bool) (L : Ledger)
    (C : List (String × Option String)) (id : String)
    (hnd : (C.map Prod.fst).Nodup)
    (hmem : (id, (none : Option String)) ∈ C) :
    (∀ m, Event.commit id m ∉ (incremental_index ok L C).events) ∧
    dget id (incremental_index ok L C).finalState = dget id L ∧
    classify (incremental_index ok L C).finalState id none ≠ DocClass.UNCHANGED := by
  refine ⟨?_, ?_, classify_none_ne_unchanged _ id⟩
  · intro m hm
    have h1 := run_commit_mem ok L C id m hm
    have h2 : (id, some m) ∈ C := (new_or_changed_sublist L C).mem h1
    have := nodup_fst_eq C hnd (id, some m) (id, none) h2 hmem rfl
    simp at this
  · by_cases hn : new_or_changed L C = []
    · rw [incremental_index_eq_nil ok L C hn]
    · rw [run_finalState ok L C hn]
      by_cases hid : id ∈ (new_or_changed L C).map Prod.fst
      · obtain ⟨p, hp, hp1⟩ := List.mem_map.mp hid
        have hpC : p ∈ C := (new_or_changed_sublist L C).mem hp
        have hpq : p = (id, none) := nodup_fst_eq C hnd p (id, none) hpC hmem hp1
        have hnd2 : ((new_or_changed L C).map Prod.fst).Nodup :=
          (List.Sublist.map Prod.fst (new_or_changed_sublist L C)).nodup hnd
        exact uploadLoop_dget_absent ok L _ id hnd2 (hpq ▸ hp)
      · exact uploadLoop_dget_not_mem ok L _ id hid
    
/-- C3 witness: concrete instance — document `c.pdf` with absent fingerprint
and an empty ledger: no commit, the entry stays absent, next classification
is not UNCHANGED. -/
theorem degraded_fp_not_committed_witness :
    (∀ m, Event.commit "c.pdf" m ∉
      (incremental_index (fun _ => true) [] [("c.pdf", none)]).events) ∧
    dget "c.pdf" (incremental_index (fun _ => true) [] [("c.pdf", none)]).finalState =
      dget "c.pdf" [] ∧
    classify (incremental_index (fun _ => true) [] [("c.pdf", none)]).finalState
      "c.pdf" none ≠ DocClass.UNCHANGED := by
  exact degraded_fp_not_committed (fun _ => true) [] [("c.pdf", none)] "c.pdf"
    (by decide) (by decide)

/-- C7: in every run, a `commit` for a document is preceded by a `pollDone`
for it (the operation reached its terminal done state); a `persist` of the
ledger is followed by no further `commit` (it happens after all commits of
the batch); and if some document of the upload set fails its upload-and-poll,
the run aborts: it reports failure, `save_index_state` is never reached, and
no `persist` event occurs, so the persisted ledger contains no entry from
any iteration of that run. -/
theorem commit_persist_ordering (ok : String → Bool) (L : Ledger)
    (C : List (String × Option String)) :
    (∀ pre i m suf,
      (incremental_index ok L C).events = pre ++ Event.commit i m :: suf →
      Event.pollDone i ∈ pre) ∧
    (∀ pre st suf,
      (incremental_index ok L C).events = pre ++ Event.persist st :: suf →
      ∀ i m, Event.commit i m ∉ suf) ∧
    ((∃ p ∈ new_or_changed L C, ok p.1 = false) →
      (incremental_index ok L C).success = false ∧
      (incremental_index ok L C).persisted = none ∧
      ∀ st, Event.persist st ∉ (incremental_index ok L C).events) := by
  refine ⟨?_, ?_, ?_⟩
  · intro pre i m suf h
    have hsb := run_seen_commit ok L C
    rw [h] at hsb
    rcases seenBefore_split markPoll needCommit pre [] (Event.commit i m) suf i hsb rfl with
      h1 | ⟨e', he', hm⟩
    · simp at h1
    · exact (markPoll_eq e' i hm) ▸ he'
  · intro pre st suf h i m
    rw [run_persist_last ok L C pre st suf h]
    exact List.not_mem_nil _
  · intro ⟨p, hp, hfail⟩
    have hn : new_or_changed L C ≠ [] := fun he => by simp [he] at hp
    have hs : ¬ (uploadLoop ok L (new_or_changed L C)).2.2 = true := by
      rw [uploadLoop_success_iff]
      intro hall
      rw [hall p hp] at hfail
      exact Bool.noConfusion hfail
    rw [incremental_index_eq_pos ok L C hn]
    simp only [hs, if_false]
    exact ⟨rfl, rfl, fun st => uploadLoop_no_persist ok L _ st⟩

/-- C7 witness: a concrete failing run — the single NEW document fails, the
run reports failure and persists nothing. -/
theorem commit_persist_ordering_witness :
    (incremental_index (fun _ => false) [] [("a.txt", some "h")]).success = false ∧
    (incremental_index (fun _ => false) [] [("a.txt", some "h")]).persisted = none := by
  have h := (commit_persist_ordering (fun _ => false) [] [("a.txt", some "h")]).2.2
    ⟨("a.txt", some "h"), by decide, rfl⟩
  exact ⟨h.1, h.2.1⟩

/-- C8 (counterexample): the claim "the staged temporary copy is removed
regardless of whether the upload-and-poll sequence succeeds or fails" is
false: when the upload fails, `os.remove(tmp_path)` — which sits after the
poll loop, not in a `finally` — is never reached. -/
theorem cleanup_counterexample :
    Event.upload "a.txt" ∈
      (incremental_index (fun _ => false) [] [("a.txt", some "h")]).events ∧
    Event.removeTmp "a.txt" ∉
      (incremental_index (fun _ => false) [] [("a.txt", some "h")]).events := by
  decide

/-- C8 (amended): in a successful run every document of the upload set has
its staged temporary copy removed, and every `removeTmp` is preceded by the
`upload` of the same document; on upload-and-poll failure the removal of
that document's copy is skipped. -/
theorem cleanup_on_success (ok : String → Bool) (L : Ledger)
    (C : List (String × Option String))
    (hs : (incremental_index ok L C).success = true) :
    (∀ p ∈ new_or_changed L C,
      Event.removeTmp p.1 ∈ (incremental_index ok L C).events) ∧
    (∀ pre i suf,
      (incremental_index ok L C).events = pre ++ Event.removeTmp i :: suf →
      Event.upload i ∈ pre) := by
  constructor
  · intro p hp
    have hn : new_or_changed L C ≠ [] := fun he => by simp [he] at hp
    have hl : (uploadLoop ok L (new_or_changed L C)).2.2 = true := by
      by_contra hl
      rw [incremental_index_eq_pos ok L C hn] at hs
      simp [hl] at hs
    rw [incremental_index_eq_pos ok L C hn]
    simp only [hl, if_true]
    exact List.mem_append_left _ (uploadLoop_removeTmp_of_success ok L _ hl p hp)
  · intro pre i suf h
    have hsb := run_seen_remove ok L C
    rw [h] at hsb
    rcases seenBefore_split markUpload needRemove pre [] (Event.removeTmp i) suf i hsb rfl with
      h1 | ⟨e', he', hm⟩
    · simp at h1
    · exact (markUpload_eq e' i hm) ▸ he'

/-- C8 witness: a concrete successful run in which the uploaded document's
temporary copy is removed. -/
theorem cleanup_on_success_witness :
    Event.removeTmp "a.txt" ∈
      (incremental_index (fun _ => true) [] [("a.txt", some "h")]).events := by
  exact (cleanup_on_success (fun _ => true) [] [("a.txt", some "h")] rfl).1
    ("a.txt", some "h") (by decide)

/-- C10: reconciliation only adds or overwrites ledger entries for documents
of the upload set and never removes an entry: an entry whose identifier is
not enumerated from the corpus is retained unchanged, every pre-existing key
is still present afterwards, and any changed entry belongs to an uploaded
(NEW/CHANGED) document; moreover, when no document is NEW/CHANGED the run
returns early: nothing is persisted, no external effect happens, and the
in-memory state is the loaded one. -/
theorem ledger_retention (ok : String → Bool) (L : Ledger)
    (C : List (String × Option String)) :
    (∀ id, id ∉ C.map Prod.fst →
      dget id (incremental_index ok L C).finalState = dget id L) ∧
    (∀ id v, dget id L = some v →
      ∃ w, dget id (incremental_index ok L C).finalState = some w) ∧
    (∀ id, dget id (incremental_index ok L C).finalState ≠ dget id L →
      id ∈ (new_or_changed L C).map Prod.fst) ∧
    (new_or_changed L C = [] →
      (incremental_index ok L C).persisted = none ∧
      (incremental_index ok L C).events = [] ∧
      (incremental_index ok L C).success = true ∧
      (incremental_index ok L C).finalState = L) := by
  have hkey : ∀ id, id ∉ (new_or_changed L C).map Prod.fst →
      dget id (incremental_index ok L C).finalState = dget id L := by
    intro id hid
    by_cases hn : new_or_changed L C = []
    · rw [incremental_index_eq_nil ok L C hn]
    · rw [run_finalState ok L C hn]
      exact uploadLoop_dget_not_mem ok L _ id hid
  refine ⟨?_, ?_, ?_, ?_⟩
  · intro id hid
    refine hkey id (fun hmem => hid ?_)
    obtain ⟨p, hp, hp1⟩ := List.mem_map.mp hmem
    exact List.mem_map.mpr ⟨p, (new_or_changed_sublist L C).mem hp, hp1⟩
  · intro id v hv
    by_cases hn : new_or_changed L C = []
    · rw [incremental_index_eq_nil ok L C hn]
      exact ⟨v, hv⟩
    · rw [run_finalState ok L C hn]
      exact uploadLoop_dget_mono ok L _ id v hv
  · intro id hne
    by_contra hid
    exact hne (hkey id hid)
  · intro hn
    rw [incremental_index_eq_nil ok L C hn]
    exact ⟨rfl, rfl, rfl, rfl⟩

/-- C10 witness: a deleted document's entry (`gone.txt`, absent from the
corpus) survives a run that uploads `b.txt`. -/
theorem ledger_retention_witness :
    dget "gone.txt"
      (incremental_index (fun _ => true) [("gone.txt", "h0")]
        [("b.txt", some "h2")]).finalState = dget "gone.txt" [("gone.txt", "h0")] := by
  exact (ledger_retention (fun _ => true) [("gone.txt", "h0")] [("b.txt", some "h2")]).1
    "gone.txt" (by decide)

lemma classify_some_unchanged_iff (L : Ledger) (i m : String) :
    classify L i (some m) = DocClass.UNCHANGED ↔ dget i L = some m := by
  cases hd : dget i L with
  | none => simp [classify, hd]
  | some old => by_cases hm : old = m <;> simp [classify, hd, hm]

/-- C2 (counterexample): with corpus `[("c.pdf", absent)]` and empty ledger,
the first run completes successfully yet the second run (same corpus, no
source change) performs one upload, not zero: an absent fingerprint is never
committed, so the document is re-uploaded every run. -/
theorem idempotence_counterexample :
    (incremental_index (fun _ => true) [] [("c.pdf", none)]).success = true ∧
    uploadCount (incremental_index (fun _ => true)
      (ledgerAfter [] (incremental_index (fun _ => true) [] [("c.pdf", none)]))
      [("c.pdf", none)]).events = 1 := by
  decide

/-- C2 (amended): if every enumerated document carries a present fingerprint
(always the case for the local-filesystem adapter; true for the GCS adapter
whenever the provider supplies `md5_hash`), identifiers are distinct (as an
enumeration yields), and the first run succeeds, then the second run over
the unchanged corpus finds nothing NEW/CHANGED and performs zero uploads. -/
theorem reconcile_idempotent (ok1 ok2 : String → Bool) (L : Ledger)
    (C : List (String × Option String))
    (hnd : (C.map Prod.fst).Nodup)
    (hfp : ∀ p ∈ C, p.2 ≠ none)
    (hs : (incremental_index ok1 L C).success = true) :
    new_or_changed (ledgerAfter L (incremental_index ok1 L C)) C = [] ∧
    (incremental_index ok2 (ledgerAfter L (incremental_index ok1 L C)) C).events = [] ∧
    uploadCount
      (incremental_index ok2 (ledgerAfter L (incremental_index ok1 L C)) C).events = 0 := by
  have key : ∀ p ∈ C,
      classify (ledgerAfter L (incremental_index ok1 L C)) p.1 p.2 = DocClass.UNCHANGED := by
    intro p hp
    obtain ⟨id, fp⟩ := p
    cases fp with
    | none => exact absurd rfl (hfp (id, none) hp)
    | some m =>
      by_cases hn : new_or_changed L C = []
      · rw [incremental_index_eq_nil ok1 L C hn]
        have hnm : (id, some m) ∉ new_or_changed L C := by rw [hn]; exact List.not_mem_nil _
        rw [mem_new_or_changed_iff] at hnm
        push_neg at hnm
        simp only [ledgerAfter]
        exact hnm hp
      · have hl : (uploadLoop ok1 L (new_or_changed L C)).2.2 = true := by
          by_contra hl
          rw [incremental_index_eq_pos ok1 L C hn] at hs
          simp [hl] at hs
        have hL2 : ledgerAfter L (incremental_index ok1 L C) =
            (uploadLoop ok1 L (new_or_changed L C)).2.1 := by
          rw [incremental_index_eq_pos ok1 L C hn]
          simp [hl, ledgerAfter]
        rw [hL2, classify_some_unchanged_iff]
        have hnd2 : ((new_or_changed L C).map Prod.fst).Nodup :=
          (List.Sublist.map Prod.fst (new_or_changed_sublist L C)).nodup hnd
        by_cases hmem : (id, some m) ∈ new_or_changed L C
        · exact uploadLoop_dget_committed ok1 L _ id m hnd2 hmem hl
        · have hid : id ∉ (new_or_changed L C).map Prod.fst := by
            intro hid
            obtain ⟨q, hq, hq1⟩ := List.mem_map.mp hid
            have hqC : q ∈ C := (new_or_changed_sublist L C).mem hq
            have := nodup_fst_eq C hnd q (id, some m) hqC hp hq1
            exact hmem (this ▸ hq)
          rw [uploadLoop_dget_not_mem ok1 L _ id hid]
          have hcl : classify L id (some m) = DocClass.UNCHANGED := by
            have hnm := hmem
            rw [mem_new_or_changed_iff] at hnm
            push_neg at hnm
            exact hnm hp
          exact (classify_some_unchanged_iff L id m).mp hcl
  have hnoc2 : new_or_changed (ledgerAfter L (incremental_index ok1 L C)) C = [] := by
    rw [new_or_changed_eq_filter]
    rw [List.filter_eq_nil]
    intro p hp
    simp [key p hp]
  refine ⟨hnoc2, ?_, ?_⟩
  · rw [incremental_index_eq_nil ok2 _ C hnoc2]
  · rw [incremental_index_eq_nil ok2 _ C hnoc2]
    rfl

/-- C2 witness: one concrete present-fingerprint corpus — the first run
succeeds and the second performs zero uploads. -/
theorem reconcile_idempotent_witness :
    uploadCount
      (incremental_index (fun _ => true)
        (ledgerAfter [] (incremental_index (fun _ => true) [] [("a.txt", some "h1")]))
        [("a.txt", some "h1")]).events = 0 := by
  exact (reconcile_idempotent (fun _ => true) (fun _ => true) [] [("a.txt", some "h1")]
    (by decide) (by decide) rfl).2.2

/-- Python `str.strip()` whitespace set (ASCII part relevant here). -/
def pyWhitespace (c : Char) : Bool :=
  c == ' ' || c == '\t' || c == '\n' || c == '\r' || c == '\x0b' || c == '\x0c'

/-- Python `s.strip()`: drop leading and trailing whitespace. -/
def pstrip (s : String) : String :=
  String.mk (((s.data.dropWhile pyWhitespace).reverse.dropWhile pyWhitespace).reverse)

/-- Result of `load_or_create_store`: the returned handle, whether the
external `file_search_stores.create` call was made, and what (if anything)
was written to the persisted handle location. -/
structure StoreResult where
  handle : String
  createCalled : Bool
  persistedHandle : Option String
deriving DecidableEq, Repr

/-- `load_or_create_store` (`index_create_local.py` lines 74–97): if
`.store_name` exists, read and strip it; if the stripped name is non-empty,
return it without touching the external service.  Otherwise create a new
store (its name supplied here as `created`), persist that name, and return
it.  The GCS variant (`index_create_gcp_cloud.py` lines 123–141) is the
same function with a missing blob read as `""`. -/
def load_or_create_store (file : Option String) (created : String) : StoreResult :=
  match file with
  | some contents =>
    let name := pstrip contents
    if name ≠ "" then { handle := name, createCalled := false, persistedHandle := none }
    else { handle := created, createCalled := true, persistedHandle := some created }
  | none => { handle := created, createCalled := true, persistedHandle := some created }

/-- C5: given a persisted non-empty (after stripping) store handle,
`load_or_create_store` returns that handle and never invokes external store
creation; creation is invoked exactly when no non-empty persisted handle
exists, and then the newly created handle is persisted and returned. -/
theorem store_registry_no_duplicate_creation (created : String) (file : Option String) :
    (∀ contents, file = some contents → pstrip contents ≠ "" →
      (load_or_create_store file created).handle = pstrip contents ∧
      (load_or_create_store file created).createCalled = false) ∧
    ((load_or_create_store file created).createCalled = true →
      (file = none ∨ ∃ c, file = some c ∧ pstrip c = "") ∧
      (load_or_create_store file created).persistedHandle = some created ∧
      (load_or_create_store file created).handle = created) ∧
    ((file = none ∨ ∃ c, file = some c ∧ pstrip c = "") →
      (load_or_create_store file created).createCalled = true) := by
  cases file with
  | none =>
    refine ⟨fun c hc => by simp at hc, fun _ => ⟨Or.inl rfl, rfl, rfl⟩, fun _ => rfl⟩
  | some contents =>
    by_cases hne : pstrip contents ≠ ""
    · refine ⟨fun c hc _ => ?_, fun hcall => ?_, fun habs => ?_⟩
      · obtain rfl : contents = c := by injection hc
        simp [load_or_create_store, hne]
      · rw [load_or_create_store] at hcall
        simp [hne] at hcall
      · rcases habs with h | ⟨c, hc, hc2⟩
        · exact absurd h (by simp)
        · obtain rfl : contents = c := by injection hc
          exact absurd hc2 hne
    · rw [not_ne_iff] at hne
      refine ⟨fun c hc hne2 => ?_, fun _ => ?_, fun _ => ?_⟩
      · obtain rfl : contents = c := by injection hc
        exact absurd hne hne2
      · exact ⟨Or.inr ⟨contents, rfl, hne⟩, by simp [load_or_create_store, hne], by
          simp [load_or_create_store, hne]⟩
      · simp [load_or_create_store, hne]

/-- C5 witness: a persisted handle `" store-123\n"` (non-empty after strip)
is returned as `"store-123"` with no external creation call. -/
theorem store_registry_no_duplicate_creation_witness :
    (load_or_create_store (some " store-123\n") "other").handle = pstrip " store-123\n" ∧
    (load_or_create_store (some " store-123\n") "other").createCalled = false := by
  exact (store_registry_no_duplicate_creation "other" (some " store-123\n")).1
    " store-123\n" rfl (by decide)

/-- `retrieved_context` of a grounding chunk: `title` and `text` attributes,
each possibly missing/None (Python `getattr(rc, "title", "") or ...`
treats None and `""` alike, so `some ""` and `none` behave identically). -/
structure RetrievedContext where
  title : Option String
  text : Option String
deriving DecidableEq, Repr

/-- A grounding chunk; `retrieved_context` may be missing/None/falsy. -/
structure GroundingChunk where
  retrieved_context : Option RetrievedContext
deriving DecidableEq, Repr

/-- `grounding_metadata`: its `grounding_chunks` attribute may be
missing/None (the code applies `or []`). -/
structure GroundingMetadata where
  grounding_chunks : Option (List GroundingChunk)
deriving DecidableEq, Repr

/-- A response candidate; `grounding_metadata` may be missing/None. -/
structure Candidate where
  grounding_metadata : Option GroundingMetadata
deriving DecidableEq, Repr

/-- The model response: `text` and `candidates` attributes, possibly
missing/None. -/
structure GenResponse where
  text : Option String
  candidates : Option (List Candidate)
deriving DecidableEq, Repr

/-- The response body of `POST /ask`. -/
structure QueryResponse where
  answer : String
  citations : List String
deriving DecidableEq, Repr

/-- One citation string (`app.py` lines 140–142):
`source_title = getattr(rc, "title", "") or "Unknown source"`;
`snippet = getattr(rc, "text", "") or ""`;
`citations.append(f'...')` formatting `source_title: "snippet"`. -/
def formatCitation (rc : RetrievedContext) : String :=
  let source_title := match rc.title with
    | none => "Unknown source"
    | some t => if t = "" then "Unknown source" else t
  let snippet := match rc.text with
    | none => ""
    | some t => t
  source_title ++ ": \"" ++ snippet ++ "\""

/-- Citations contributed by one grounding chunk: none when
`retrieved_context` is falsy (`if not rc: continue`). -/
def chunkCitations (chunk : GroundingChunk) : List String :=
  match chunk.retrieved_context with
  | none => []
  | some rc => [formatCitation rc]

/-- Citations contributed by one candidate: none when `grounding_metadata`
is falsy (`if not gm: continue`); otherwise one pass over
`getattr(gm, "grounding_chunks", []) or []`. -/
def candidateCitations (c : Candidate) : List String :=
  match c.grounding_metadata with
  | none => []
  | some gm =>
    match gm.grounding_chunks with
    | none => []
    | some chunks => chunks.foldr (fun ch acc => chunkCitations ch ++ acc) []

/-- The citation-collection loop over `getattr(response, "candidates", None) or []`. -/
def collectCitations : List Candidate → List String
  | [] => []
  | c :: rest => candidateCitations c ++ collectCitations rest

/-- `ask_question` (`app.py` lines 90–144, `app_remote.py` lines 120–173),
after the external `generate_content` call returned `response`: raise a 500
HTTPException when no store is configured; otherwise answer with
`getattr(response, "text", "") or ""` and the collected citations. -/
def ask_question (STORE_NAME : String) (response : GenResponse) :
    Except String QueryResponse :=
  if STORE_NAME = "" then
    Except.error "File Search store not loaded."
  else
    Except.ok
      { answer := match response.text with
          | none => ""
          | some t => t,
        citations := collectCitations (match response.candidates with
          | none => []
          | some cs => cs) }

/-- A retrieved context reachable in the response's grounding structure. -/
def rcInResponse (response : GenResponse) (rc : RetrievedContext) : Prop :=
  ∃ c ∈ (match response.candidates with | none => [] | some cs => cs),
    ∃ gm, c.grounding_metadata = some gm ∧
      ∃ ch ∈ (match gm.grounding_chunks with | none => [] | some chunks => chunks),
        ch.retrieved_context = some rc

lemma mem_collectCitations (cands : List Candidate) (s : String)
    (h : s ∈ collectCitations cands) :
    ∃ c ∈ cands, ∃ gm, c.grounding_metadata = some gm ∧
      ∃ ch ∈ (match gm.grounding_chunks with | none => [] | some chunks => chunks),
        ∃ rc, ch.retrieved_context = some rc ∧ s = formatCitation rc := by
  induction cands with
  | nil => simp [collectCitations] at h
  | cons c rest ih =>
    rcases List.mem_append.mp h with h1 | h1
    · refine ⟨c, List.mem_cons_self _ _, ?_⟩
      unfold candidateCitations at h1
      cases hgm : c.grounding_metadata with
      | none => simp [hgm] at h1
      | some gm =>
        simp only [hgm] at h1
        refine ⟨gm, rfl, ?_⟩
        cases hch : gm.grounding_chunks with
        | none => simp [hch] at h1
        | some chunks =>
          simp only [hch] at h1
          simp only
          clear hch hgm ih h
          induction chunks with
          | nil => simp at h1
          | cons ch chrest ihc =>
            rcases List.mem_append.mp h1 with h2 | h2
            · refine ⟨ch, List.mem_cons_self _ _, ?_⟩
              unfold chunkCitations at h2
              cases hrc : ch.retrieved_context with
              | none => simp [hrc] at h2
              | some rc =>
                simp only [hrc] at h2
                rcases List.mem_singleton.mp h2 with h3
                exact ⟨rc, rfl, h3⟩
            · obtain ⟨ch, hm, hrest⟩ := ihc h2
              exact ⟨ch, List.mem_cons_of_mem _ hm, hrest⟩
    · obtain ⟨c', hm, hrest⟩ := ih h1
      exact ⟨c', List.mem_cons_of_mem _ hm, hrest⟩

lemma collectCitations_eq_nil (cands : List Candidate)
    (h : ∀ c ∈ cands, c.grounding_metadata = none) : collectCitations cands = [] := by
  induction cands with
  | nil => rfl
  | cons c rest ih =>
    have h1 := h c (List.mem_cons_self _ _)
    simp only [collectCitations, candidateCitations, h1, List.nil_append]
    exact ih (fun c' hc' => h c' (List.mem_cons_of_mem _ hc'))

/-- C9: when a store is configured, `POST /ask` returns `ok`; every citation
string is `source_title ++ ": \"" ++ snippet ++ "\""` built from some
retrieved context reachable in the response's grounding structure, with the
title replaced by the fixed placeholder `"Unknown source"` when it is absent
(None or empty — both falsy in the source); a candidate without grounding
metadata contributes no citations; and if no candidate has grounding
metadata the answer is returned with an empty citation list and no error. -/
theorem ask_citation_format (store : String) (resp : GenResponse)
    (hstore : store ≠ "") :
    (∃ qr, ask_question store resp = Except.ok qr ∧
      ∀ s ∈ qr.citations, ∃ rc, rcInResponse resp rc ∧
        s = (match rc.title with
             | none => "Unknown source"
             | some t => if t = "" then "Unknown source" else t) ++ ": \"" ++
            (match rc.text with | none => "" | some t => t) ++ "\"") ∧
    (∀ c cands, c.grounding_metadata = none →
      collectCitations (c :: cands) = collectCitations cands) ∧
    ((∀ c ∈ (match resp.candidates with | none => [] | some cs => cs),
        c.grounding_metadata = none) →
      ask_question store resp =
        Except.ok ⟨(match resp.text with | none => "" | some t => t), []⟩) := by
  refine ⟨?_, ?_, ?_⟩
  · refine ⟨{ answer := match resp.text with | none => "" | some t => t,
              citations := collectCitations
                (match resp.candidates with | none => [] | some cs => cs) },
            by rw [ask_question]; simp [hstore], ?_⟩
    intro s hs
    obtain ⟨c, hc, gm, hgm, ch, hch, rc, hrc, hfmt⟩ := mem_collectCitations _ s hs
    refine ⟨rc, ⟨c, hc, gm, hgm, ch, hch, hrc⟩, ?_⟩
    rw [hfmt]
    rfl
  · intro c cands h1
    simp only [collectCitations, candidateCitations, h1, List.nil_append]
  · intro hall
    rw [ask_question]
    simp only [hstore, if_false]
    rw [collectCitations_eq_nil _ hall]

/-- C9 witness: a configured store and a response whose single candidate has
no grounding metadata — the answer comes back with no citations and no
error. -/
theorem ask_citation_format_witness :
    ask_question "files/store-1"
      { text := some "hi", candidates := some [{ grounding_metadata := none }] } =
      Except.ok ⟨"hi", []⟩ := by
  exact (ask_citation_format "files/store-1"
    { text := some "hi", candidates := some [{ grounding_metadata := none }] }
    (by decide)).2.2 (by decide)

/-- JSON string escaping as `json.dumps` performs it on the character set of
well-formed ledgers (printable ASCII): only `"` and `\` need a backslash
escape. -/
def jsonEscapeChar (c : Char) : List Char :=
  if c = '"' then ['\\', '"']
  else if c = '\\' then ['\\', '\\']
  else [c]

def jsonEscape : List Char → List Char
  | [] => []
  | c :: rest => jsonEscapeChar c ++ jsonEscape rest

/-- A JSON string literal: `"` + escaped body + `"`. -/
def renderStr (s : List Char) : List Char := '"' :: (jsonEscape s ++ ['"'])

/-- One `"key": "value"` line at `indent=2`. -/
def renderEntry (p : List Char × List Char) : List Char :=
  ' ' :: ' ' :: (renderStr p.1 ++ (':' :: ' ' :: renderStr p.2))

/-- The entry lines, separated by `",\n"`. -/
def renderEntries : List (List Char × List Char) → List Char
  | [] => []
  | [p] => renderEntry p
  | p :: rest => renderEntry p ++ (',' :: '\n' :: renderEntries rest)

/-- `json.dumps(obj, indent=2)` for a flat string-to-string object whose
entries are already in serialization order: `"\x7b\x7d"` when empty, else
`"\x7b\n" + lines + "\n\x7d"`. -/
def dumpsChars (L : List (List Char × List Char)) : List Char :=
  match L with
  | [] => ['\x7b', '\x7d']
  | _ => '\x7b' :: '\n' :: (renderEntries L ++ ['\n', '\x7d'])

/-- Code-point lexicographic comparison of character lists — the order
Python's string comparison (and hence `sort_keys=True`) uses. -/
def listLe : List Char → List Char → Bool
  | [], _ => true
  | _ :: _, [] => false
  | x :: xs, y :: ys =>
    if x.toNat < y.toNat then true
    else if y.toNat < x.toNat then false
    else listLe xs ys

/-- Key comparison for `sort_keys=True`. -/
def keyLe (a b : String) : Bool := listLe a.data b.data

/-- Insertion step of key-sorting. -/
def insertEntry (p : String × String) : Ledger → Ledger
  | [] => [p]
  | q :: rest => if keyLe p.1 q.1 then p :: q :: rest else q :: insertEntry p rest

/-- Sort the ledger's entries by key. -/
def sortEntries : Ledger → Ledger
  | [] => []
  | p :: rest => insertEntry p (sortEntries rest)

/-- `save_index_state` (`index_create_local.py` lines 59–62) /
`save_index_state_to_gcs` (`index_create_gcp_cloud.py` lines 114–116): the
text `json.dumps(state, indent=2, sort_keys=True)` writes to the persisted
location. -/
def save_index_state (state : Ledger) : String :=
  String.mk (dumpsChars ((sortEntries state).map (fun p => (p.1.data, p.2.data))))

/-- Parse a JSON string body after the opening quote; returns the unescaped
body and the remainder after the closing quote. -/
def parseStringBody : List Char → Option (List Char × List Char)
  | [] => none
  | c :: rest =>
    if c = '"' then some ([], rest)
    else if c = '\\' then
      match rest with
      | [] => none
      | d :: rest2 =>
        match parseStringBody rest2 with
        | some (s, r) => some (d :: s, r)
        | none => none
    else
      match parseStringBody rest with
      | some (s, r) => some (c :: s, r)
      | none => none

/-- Parse one `  "key": "value"` line. -/
def parseEntry (l : List Char) : Option ((List Char × List Char) × List Char) :=
  match l with
  | c1 :: c2 :: c3 :: rest =>
    if c1 = ' ' then
      if c2 = ' ' then
        if c3 = '"' then
          match parseStringBody rest with
          | some (k, r1) =>
            match r1 with
            | d1 :: d2 :: d3 :: r2 =>
              if d1 = ':' then
                if d2 = ' ' then
                  if d3 = '"' then
                    match parseStringBody r2 with
                    | some (v, r3) => some ((k, v), r3)
                    | none => none
                  else none
                else none
              else none
            | _ => none
          | none => none
        else none
      else none
    else none
  | _ => none

/-- Parse `",\n"`-separated entry lines (fuel-bounded; each line consumes at
least one character, so `length + 1` fuel always suffices). -/
def parseEntries : Nat → List Char → Option (List (List Char × List Char) × List Char)
  | 0, _ => none
  | Nat.succ n, l =>
    match parseEntry l with
    | none => none
    | some (e, r) =>
      match r with
      | c1 :: c2 :: r2 =>
        if c1 = ',' then
          if c2 = '\n' then
            match parseEntries n r2 with
            | some (es, r3) => some (e :: es, r3)
            | none => none
          else some ([e], c1 :: c2 :: r2)
        else some ([e], c1 :: c2 :: r2)
      | _ => some ([e], r)

/-- Parse the full serialized object (the canonical form `save_index_state`
produces, which is the only writer of the persisted ledger). -/
def parseTop (l : List Char) : Option (List (List Char × List Char)) :=
  match l with
  | c1 :: c2 :: rest =>
    if c1 = '\x7b' then
      if c2 = '\x7d' then
        match rest with
        | [] => some []
        | _ => none
      else if c2 = '\n' then
        match parseEntries (rest.length + 1) rest with
        | some (es, r) =>
          match r with
          | [d1, d2] =>
            if d1 = '\n' then if d2 = '\x7d' then some es else none
            else none
          | _ => none
        | none => none
      else none
    else none
  | _ => none

/-- `json.loads` on the persisted ledger text: the parsed mapping, or `none`
on a parse error (`json.JSONDecodeError`). -/
def loads (s : String) : Option Ledger :=
  match parseTop s.data with
  | some es => some (es.map (fun p => (String.mk p.1, String.mk p.2)))
  | none => none

/-- `load_index_state` (`index_create_local.py` lines 51–56) /
`load_index_state_from_gcs` (`index_create_gcp_cloud.py` lines 102–111):
return `\x7b\x7d` (empty mapping) when the persisted document is absent;
otherwise `json.loads` the text — a parse failure raises and propagates
(there is no try/except around it). -/
def load_index_state (file : Option String) : Except String Ledger :=
  match file with
  | none => Except.ok []
  | some text =>
    match loads text with
    | some st => Except.ok st
    | none => Except.error "json.decoder.JSONDecodeError"

/-- Printable-ASCII characters, on which `jsonEscapeChar` agrees with
`json.dumps` escaping (controls and non-ASCII would be `\uXXXX`-escaped by
`json.dumps`'s default `ensure_ascii=True`). -/
def jsonSafeChar (c : Char) : Bool := 32 ≤ c.toNat && c.toNat ≤ 126

def jsonSafeStr (s : String) : Bool := s.data.all jsonSafeChar

/-- A well-formed ledger: unique keys (a Python dict cannot hold duplicate
keys) and printable-ASCII keys and fingerprints (hex digests and object
keys in practice). -/
def wellFormedLedger (L : Ledger) : Prop :=
  (L.map Prod.fst).Nodup ∧ ∀ p ∈ L, jsonSafeStr p.1 ∧ jsonSafeStr p.2

lemma parseStringBody_cons (c : Char) (rest : List Char) :
    parseStringBody (c :: rest) =
      (if c = '"' then some ([], rest)
       else if c = '\\' then
         match rest with
         | [] => none
         | d :: rest2 =>
           match parseStringBody rest2 with
           | some (s, r) => some (d :: s, r)
           | none => none
       else
         match parseStringBody rest with
         | some (s, r) => some (c :: s, r)
         | none => none) := by
  rw [parseStringBody.eq_def]

lemma parseStringBody_roundtrip (s rest : List Char) :
    parseStringBody (jsonEscape s ++ ('"' :: rest)) = some (s, rest) := by
  induction s with
  | nil => simp [jsonEscape, parseStringBody_cons]
  | cons c s2 ih =>
    by_cases h1 : c = '"'
    · subst h1
      simp [jsonEscape, jsonEscapeChar, parseStringBody_cons, ih]
    · by_cases h2 : c = '\\'
      · subst h2
        simp [jsonEscape, jsonEscapeChar, parseStringBody_cons, ih]
      · simp [jsonEscape, jsonEscapeChar, parseStringBody_cons, h1, h2, ih]

lemma parseEntry_roundtrip (k v rest : List Char) :
    parseEntry (renderEntry (k, v) ++ rest) = some ((k, v), rest) := by
  have he : renderEntry (k, v) ++ rest =
      ' ' :: ' ' :: '"' ::
        (jsonEscape k ++ ('"' :: (':' :: ' ' :: '"' :: (jsonEscape v ++ ('"' :: rest))))) := by
    simp [renderEntry, renderStr]
  rw [he, parseEntry.eq_def]
  simp [parseStringBody_roundtrip]

lemma parseEntry_roundtrip2 (p : List Char × List Char) (rest : List Char) :
    parseEntry (renderEntry p ++ rest) = some (p, rest) := by
  obtain ⟨k, v⟩ := p
  exact parseEntry_roundtrip k v rest

lemma parseEntries_roundtrip (L : List (List Char × List Char)) :
    ∀ n : Nat, L ≠ [] → L.length ≤ n →
    parseEntries n (renderEntries L ++ ['\n', '\x7d']) = some (L, ['\n', '\x7d']) := by
  induction L with
  | nil => intro n h _; exact absurd rfl h
  | cons p L2 ih =>
    intro n _ hlen
    cases n with
    | zero => simp at hlen
    | succ m =>
      cases L2 with
      | nil =>
        simp only [renderEntries]
        rw [parseEntries]
        rw [parseEntry_roundtrip2]
        simp
      | cons q L3 =>
        simp only [renderEntries, List.append_assoc, List.cons_append]
        rw [parseEntries]
        rw [parseEntry_roundtrip2]
        simp only [List.length_cons] at hlen
        have hm : (q :: L3).length ≤ m := by simp at hlen ⊢; omega
        simp [ih m (List.cons_ne_nil q L3) hm]

lemma renderEntries_length_ge (L : List (List Char × List Char)) :
    L.length ≤ (renderEntries L).length := by
  induction L with
  | nil => simp [renderEntries]
  | cons p L2 ih =>
    cases L2 with
    | nil => simp [renderEntries, renderEntry]
    | cons q L3 =>
      simp only [renderEntries, List.length_append, List.length_cons] at ih ⊢
      simp [renderEntry]
      omega

lemma dumpsChars_roundtrip (L : List (List Char × List Char)) :
    parseTop (dumpsChars L) = some L := by
  cases L with
  | nil => rfl
  | cons p L2 =>
    have hne : (p :: L2) ≠ [] := List.cons_ne_nil p L2
    have hlen : (p :: L2).length ≤ (renderEntries (p :: L2) ++ ['\n', '\x7d']).length + 1 := by
      have := renderEntries_length_ge (p :: L2)
      simp only [List.length_append, List.length_cons] at this ⊢
      omega
    simp only [dumpsChars]
    rw [parseTop.eq_def]
    simp only []
    rw [parseEntries_roundtrip (p :: L2) _ hne hlen]
    simp

lemma listLe_total (a : List Char) : ∀ b, listLe a b = true ∨ listLe b a = true := by
  induction a with
  | nil => intro b; exact Or.inl rfl
  | cons x xs ih =>
    intro b
    cases b with
    | nil => exact Or.inr rfl
    | cons y ys =>
      rcases Nat.lt_trichotomy x.toNat y.toNat with h | h | h
      · exact Or.inl (by simp [listLe, h])
      · rcases ih ys with h2 | h2
        · exact Or.inl (by simp [listLe, h, h2])
        · exact Or.inr (by simp [listLe, h, h2])
      · exact Or.inr (by simp [listLe, h])

lemma listLe_trans (a : List Char) : ∀ b c, listLe a b = true → listLe b c = true →
    listLe a c = true := by
  induction a with
  | nil => intro b c _ _; rfl
  | cons x xs ih =>
    intro b c hab hbc
    cases b with
    | nil => simp [listLe] at hab
    | cons y ys =>
      cases c with
      | nil => simp [listLe] at hbc
      | cons z zs =>
        rcases Nat.lt_trichotomy x.toNat y.toNat with h1 | h1 | h1 <;>
          rcases Nat.lt_trichotomy y.toNat z.toNat with h2 | h2 | h2 <;>
          simp [listLe, h1, h2, Nat.lt_irrefl] at hab hbc ⊢ <;>
          first
          | omega
          | (exact ih ys zs hab hbc)

lemma listLe_antisymm (a : List Char) : ∀ b, listLe a b = true → listLe b a = true →
    a = b := by
  induction a with
  | nil =>
    intro b _ hba
    cases b with
    | nil => rfl
    | cons y ys => simp [listLe] at hba
  | cons x xs ih =>
    intro b hab hba
    cases b with
    | nil => simp [listLe] at hab
    | cons y ys =>
      rcases Nat.lt_trichotomy x.toNat y.toNat with h1 | h1 | h1
      · simp [listLe, h1, Nat.not_lt_of_lt h1] at hba
      · have hxy : x = y := by
          have h2 := Char.ofNat_toNat x
          rw [h1] at h2
          rw [← h2, Char.ofNat_toNat]
        simp only [listLe, h1, Nat.lt_irrefl, if_false] at hab hba
        rw [hxy, ih ys (by simpa [hxy] using hab) (by simpa [hxy] using hba)]
      · simp [listLe, h1, Nat.not_lt_of_lt h1] at hab

lemma keyLe_total (a b : String) : keyLe a b = true ∨ keyLe b a = true :=
  listLe_total a.data b.data

lemma keyLe_trans (a b c : String) (h1 : keyLe a b = true) (h2 : keyLe b c = true) :
    keyLe a c = true :=
  listLe_trans a.data b.data c.data h1 h2

lemma keyLe_antisymm (a b : String) (h1 : keyLe a b = true) (h2 : keyLe b a = true) :
    a = b := by
  have h := listLe_antisymm a.data b.data h1 h2
  cases a
  cases b
  exact congrArg String.mk h

lemma stringMkData (s : String) : String.mk s.data = s := by
  cases s
  rfl

lemma loads_save (L : Ledger) : loads (save_index_state L) = some (sortEntries L) := by
  unfold loads save_index_state
  rw [show (String.mk (dumpsChars ((sortEntries L).map fun p => (p.1.data, p.2.data)))).data
      = dumpsChars ((sortEntries L).map fun p => (p.1.data, p.2.data)) from rfl]
  rw [dumpsChars_roundtrip]
  simp only [List.map_map]
  rw [show ((fun p : List Char × List Char => (String.mk p.1, String.mk p.2)) ∘
      fun p : String × String => (p.1.data, p.2.data)) = id from
    funext fun p => by
      obtain ⟨a, b⟩ := p
      simp [Function.comp, stringMkData]]
  simp

lemma insertEntry_perm (p : String × String) (L : Ledger) :
    (insertEntry p L).Perm (p :: L) := by
  induction L with
  | nil => exact List.Perm.refl _
  | cons q rest ih =>
    by_cases h : keyLe p.1 q.1 = true
    · simp [insertEntry, h]
    · simp only [insertEntry, if_neg h]
      exact (ih.cons q).trans (List.Perm.swap p q rest)

lemma sortEntries_perm (L : Ledger) : (sortEntries L).Perm L := by
  induction L with
  | nil => exact List.Perm.refl _
  | cons p rest ih => exact (insertEntry_perm p (sortEntries rest)).trans (ih.cons p)

lemma insertEntry_pairwise (p : String × String) (L : Ledger)
    (h : List.Pairwise (fun a b : String × String => keyLe a.1 b.1 = true) L) :
    List.Pairwise (fun a b : String × String => keyLe a.1 b.1 = true) (insertEntry p L) := by
  induction L with
  | nil => simp [insertEntry]
  | cons q rest ih =>
    rcases List.pairwise_cons.mp h with ⟨hq, hrest⟩
    by_cases hle : keyLe p.1 q.1 = true
    · simp only [insertEntry, if_pos hle]
      refine List.pairwise_cons.mpr ⟨?_, h⟩
      intro x hx
      rcases List.mem_cons.mp hx with h1 | h1
      · exact h1 ▸ hle
      · exact keyLe_trans _ _ _ hle (hq x h1)
    · simp only [insertEntry, if_neg hle]
      refine List.pairwise_cons.mpr ⟨?_, ih hrest⟩
      intro x hx
      have hx2 := (insertEntry_perm p rest).mem_iff.mp hx
      rcases List.mem_cons.mp hx2 with h1 | h1
      · subst h1
        rcases keyLe_total x.1 q.1 with h2 | h2
        · exact absurd h2 hle
        · exact h2
      · exact hq x h1

lemma sortEntries_pairwise (L : Ledger) :
    List.Pairwise (fun a b : String × String => keyLe a.1 b.1 = true) (sortEntries L) := by
  induction L with
  | nil => simp [sortEntries]
  | cons p rest ih => exact insertEntry_pairwise p (sortEntries rest) ih

lemma dget_mem (L : Ledger) (id v : String) (h : dget id L = some v) : (id, v) ∈ L := by
  induction L with
  | nil => simp [dget] at h
  | cons q rest ih =>
    obtain ⟨k, w⟩ := q
    by_cases hk : k = id
    · subst hk
      simp [dget] at h
      simp [h]
    · simp [dget, hk] at h
      exact List.mem_cons_of_mem _ (ih h)

lemma dget_eq_some_of_mem (L : Ledger) (hnd : (L.map Prod.fst).Nodup) (id v : String)
    (h : (id, v) ∈ L) : dget id L = some v := by
  induction L with
  | nil => simp at h
  | cons q rest ih =>
    obtain ⟨k, w⟩ := q
    simp only [List.map_cons, List.nodup_cons] at hnd
    rcases List.mem_cons.mp h with h1 | h1
    · injection h1 with hik hvw
      simp [dget, hik.symm, hvw.symm]
    · have hk : k ≠ id := by
        intro he
        exact hnd.1 (he ▸ List.mem_map.mpr ⟨(id, v), h1, rfl⟩)
      simp [dget, hk]
      exact ih hnd.2 h1

lemma dget_none_iff (L : Ledger) (id : String) :
    dget id L = none ↔ id ∉ L.map Prod.fst := by
  induction L with
  | nil => simp [dget]
  | cons q rest ih =>
    obtain ⟨k, w⟩ := q
    by_cases hk : k = id
    · subst hk
      simp [dget]
    · simp [dget, hk, ih, Ne.symm hk]

lemma dget_eq_of_perm (L1 L2 : Ledger) (hnd : (L1.map Prod.fst).Nodup)
    (hp : L1.Perm L2) (id : String) : dget id L1 = dget id L2 := by
  have hnd2 : (L2.map Prod.fst).Nodup := ((hp.map Prod.fst).nodup_iff).mp hnd
  cases hd : dget id L1 with
  | none =>
    have h1 := (dget_none_iff L1 id).mp hd
    have h2 : id ∉ L2.map Prod.fst := fun hm => h1 ((hp.map Prod.fst).mem_iff.mpr hm)
    exact ((dget_none_iff L2 id).mpr h2).symm
  | some v =>
    exact (dget_eq_some_of_mem L2 hnd2 id v (hp.mem_iff.mp (dget_mem L1 id v hd))).symm

lemma pairwise_strict_of_nodup (L : Ledger)
    (hle : List.Pairwise (fun a b : String × String => keyLe a.1 b.1 = true) L)
    (hnd : (L.map Prod.fst).Nodup) :
    List.Pairwise (fun a b : String × String => keyLe a.1 b.1 = true ∧ a.1 ≠ b.1) L := by
  have hne : List.Pairwise (fun a b : String × String => a.1 ≠ b.1) L :=
    (List.pairwise_map).mp hnd
  exact hle.and hne

lemma sorted_dget_ext (L1 : Ledger) :
    ∀ (L2 : Ledger),
    List.Pairwise (fun a b : String × String => keyLe a.1 b.1 = true ∧ a.1 ≠ b.1) L1 →
    List.Pairwise (fun a b : String × String => keyLe a.1 b.1 = true ∧ a.1 ≠ b.1) L2 →
    (∀ id, dget id L1 = dget id L2) → L1 = L2 := by
  induction L1 with
  | nil =>
    intro L2 _ _ hext
    cases L2 with
    | nil => rfl
    | cons q t2 =>
      obtain ⟨k2, v2⟩ := q
      have h := hext k2
      simp [dget] at h
  | cons p t1 ih =>
    intro L2 h1 h2 hext
    obtain ⟨k1, v1⟩ := p
    cases L2 with
    | nil =>
      have h := hext k1
      simp [dget] at h
    | cons q t2 =>
      obtain ⟨k2, v2⟩ := q
      rcases List.pairwise_cons.mp h1 with ⟨hk1, ht1⟩
      rcases List.pairwise_cons.mp h2 with ⟨hk2, ht2⟩
      have hkeq : k1 = k2 := by
        by_contra hne
        have ha := hext k1
        have hb := hext k2
        simp [dget, hne, Ne.symm hne] at ha hb
        have hma : (k1, v1) ∈ t2 := dget_mem t2 k1 v1 ha.symm
        have hmb : (k2, v2) ∈ t1 := dget_mem t1 k2 v2 hb
        have hq1 := hk2 (k1, v1) hma
        have hq2 := hk1 (k2, v2) hmb
        exact hne (keyLe_antisymm k1 k2 hq2.1 hq1.1)
      subst hkeq
      have hveq : v1 = v2 := by
        have h := hext k1
        simpa [dget] using h
      subst hveq
      have hext2 : ∀ id, dget id t1 = dget id t2 := by
        intro id
        by_cases hid : id = k1
        · subst hid
          have hn1 : dget id t1 = none := by
            rw [dget_none_iff]
            intro hm
            obtain ⟨x, hx, hx1⟩ := List.mem_map.mp hm
            exact (hk1 x hx).2 hx1.symm
          have hn2 : dget id t2 = none := by
            rw [dget_none_iff]
            intro hm
            obtain ⟨x, hx, hx1⟩ := List.mem_map.mp hm
            exact (hk2 x hx).2 hx1.symm
          rw [hn1, hn2]
        · have h := hext id
          simpa [dget, Ne.symm hid] using h
      rw [ih t2 ht1 ht2 hext2]

/-- C4: for a well-formed ledger (unique keys, printable-ASCII strings —
the domain on which the embedded serializer agrees with `json.dumps`),
saving and re-loading yields the sorted entry list, which is equal to the
original as a mapping; the serialized entries are in sorted key order; and
the serialized form is deterministic: it depends only on the mapping, not
on entry order. -/
theorem ledger_roundtrip (L : Ledger) (hwf : wellFormedLedger L) :
    loads (save_index_state L) = some (sortEntries L) ∧
    (∀ id, dget id (sortEntries L) = dget id L) ∧
    List.Pairwise (fun a b : String × String => keyLe a.1 b.1 = true) (sortEntries L) ∧
    (∀ L2, wellFormedLedger L2 → (∀ id, dget id L2 = dget id L) →
      save_index_state L2 = save_index_state L) := by
  obtain ⟨hnd, -⟩ := hwf
  have hsp := sortEntries_perm L
  have hnds : ((sortEntries L).map Prod.fst).Nodup := ((hsp.map Prod.fst).nodup_iff).mpr hnd
  refine ⟨loads_save L, fun id => dget_eq_of_perm _ _ hnds hsp id,
    sortEntries_pairwise L, ?_⟩
  intro L2 hwf2 hext
  obtain ⟨hnd2, -⟩ := hwf2
  have hsp2 := sortEntries_perm L2
  have hnds2 : ((sortEntries L2).map Prod.fst).Nodup :=
    ((hsp2.map Prod.fst).nodup_iff).mpr hnd2
  have hsort : sortEntries L2 = sortEntries L := by
    apply sorted_dget_ext
    · exact pairwise_strict_of_nodup _ (sortEntries_pairwise L2) hnds2
    · exact pairwise_strict_of_nodup _ (sortEntries_pairwise L) hnds
    · intro id
      calc dget id (sortEntries L2) = dget id L2 := dget_eq_of_perm _ _ hnds2 hsp2 id
        _ = dget id L := hext id
        _ = dget id (sortEntries L) := (dget_eq_of_perm _ _ hnds hsp id).symm
  unfold save_index_state
  rw [hsort]

/-- C4 witness: a concrete two-entry ledger, given out of key order, loads
back sorted and equal as a mapping. -/
theorem ledger_roundtrip_witness :
    loads (save_index_state [("b.txt", "h2"), ("a.txt", "h1")]) =
      some [("a.txt", "h1"), ("b.txt", "h2")] := by
  exact (ledger_roundtrip [("b.txt", "h2"), ("a.txt", "h1")]
    ⟨by decide, by decide⟩).1.trans (by decide)

/-- C6: loading the persisted ledger returns the empty mapping exactly when
the persisted document is absent; when it is present but unparseable,
`json.loads` raises and the error propagates (aborting the indexing run) —
the ledger is never silently replaced: every `ok` result is the honest
parse of the persisted text. -/
theorem ledger_parse_error_aborts (text : String) :
    load_index_state none = Except.ok [] ∧
    (loads text = none →
      load_index_state (some text) = Except.error "json.decoder.JSONDecodeError") ∧
    (∀ st, load_index_state (some text) = Except.ok st → loads text = some st) := by
  refine ⟨rfl, ?_, ?_⟩
  · intro h
    simp [load_index_state, h]
  · intro st h
    unfold load_index_state at h
    cases hl : loads text with
    | none =>
      simp only [hl] at h
      exact Except.noConfusion h
    | some st2 =>
      simp only [hl] at h
      injection h with h2
      rw [h2]

/-- C6 witness: a present but malformed persisted ledger makes the load
fail with a parse error instead of returning an empty mapping. -/
theorem ledger_parse_error_aborts_witness :
    load_index_state (some "not json") = Except.error "json.decoder.JSONDecodeError" := by
  exact (ledger_parse_error_aborts "not json").2.1 (by decide)
